import Mathlib

/-!
Verification of the recursive research-agent orchestrator
(`research` in `src/index.ts` / the generator shown in the repository
documentation, `src/unnamed/part_000` lines 12-44).

The orchestrator is a single recursive task procedure: given a topic and a
depth budget it keeps a linear conversation history, repeatedly consults a
text-generation oracle (the `prompt` helper run through `ctx.run`), and on
each consultation either spawns one concurrent child invocation per
decomposition request (`ctx.beginRpc(research, subtopic, depth - 1)`),
awaits the handles in creation order, appends one tool-result entry per
resolved child, and loops; or returns the response's textual content.

We embed one invocation as a small-step state machine.  The oracle and the
results of spawned children are an explicit environment: the oracle is a
function of the history (the "same sequence of oracle responses" of the
spec), a child's outcome is a function of the `(subtopic, depth)` it was
spawned with.  Each step optionally emits an observable event (consult,
spawn, await), so temporal claims become statements about event traces.

The file `src/unnamed/part_000` contains the orchestrator only as an
elided documentation snippet (the module `./agent` it is imported from is
not part of the sources); the parts the snippet elides are modelled from
the spec and marked `Modelled from the spec:` below.
-/

namespace ResearchAgent

/-- A decomposition request ("tool call"): a unique identifier scoped to the
oracle response and the subtopic string extracted from the oracle output
(`const subtopic = ...` in the snippet). -/
structure ToolCall where
  id : String
  subtopic : String
deriving Repr, DecidableEq

/-- One entry of the conversation history, mirroring the message objects the
code pushes onto `messages`: the fixed system instruction, the initial user
request, the oracle's assistant response (carrying its decomposition
requests), and a tool-result entry tagged with the originating request's
identifier. -/
inductive Message where
  | system (content : String)
  | user (content : String)
  | assistant (content : String) (tool_calls : List ToolCall)
  | tool (tool_call_id : String) (content : String)
deriving Repr, DecidableEq

/-- An oracle (LLM) response: textual content plus the list of decomposition
requests.  Modelled from the spec: the oracle output is a closed variant of
terminal answer (no decomposition requests, here the empty list) versus an
ordered set of requests. -/
structure OracleResponse where
  content : String
  tool_calls : List ToolCall
deriving Repr, DecidableEq

/-- Failure outcomes of an invocation (spec section 7).  Modelled from the
spec: `invalidInput` rejects a negative depth or empty topic before any
oracle call; `childFailure` is a spawned child's failure, propagated
fail-fast and referencing the child's subtopic. -/
inductive Failure where
  | invalidInput
  | childFailure (subtopic : String) (reason : String)
deriving Repr, DecidableEq

/-- A spawn handle: the addressable reference returned by
`ctx.beginRpc(research, subtopic, depth - 1)`, recording which child
invocation it resolves to. -/
structure Handle where
  subtopic : String
  depth : Int
deriving Repr, DecidableEq

/-- The environment of one invocation: the oracle as a deterministic function
of the conversation history sent to it, and the outcome of a spawned child
invocation as a function of the `(subtopic, depth)` it was invoked with.
Fixing an `Env` is the claims' "given the same oracle responses and the same
child results". -/
structure Env where
  oracle : List Message → OracleResponse
  childResult : String → Int → Except Failure String

/-- The control phase of one invocation of `research`:
input validation, the consult step, the fan-out loop (pending requests not
yet spawned, handles created so far), the fan-in loop (handles not yet
awaited), or a terminal result. -/
inductive Phase where
  | validating
  | consulting
  | spawning (pending : List ToolCall) (handles : List (ToolCall × Handle))
  | awaiting (handles : List (ToolCall × Handle))
  | done (result : String)
  | failed (e : Failure)
deriving Repr, DecidableEq

/-- The externalizable state of one invocation: its arguments, the
conversation history `messages`, and the current phase. -/
structure InvState where
  topic : String
  depth : Int
  messages : List Message
  phase : Phase
deriving Repr, DecidableEq

/-- Observable events of one invocation: an oracle consultation, the creation
of a spawn handle for a child at a given depth, the successful await of a
child (identified by the originating request), or a child failure observed at
an await. -/
inductive Event where
  | consult
  | spawn (id : String) (subtopic : String) (depth : Int)
  | awaitChild (id : String)
  | childFailed (id : String)
deriving Repr, DecidableEq

/-- The system instruction, first entry of every history
(snippet line 14). -/
def systemInstruction : String := "Break topics into subtopics..."

/-- The initial conversation history built at function entry
(snippet lines 13-16): the system instruction and the user request. -/
def initMessages (topic : String) : List Message :=
  [Message.system systemInstruction, Message.user ("Research " ++ topic)]

/-- The state in which an invocation `research(topic, depth)` starts. -/
def researchInit (topic : String) (depth : Int) : InvState :=
  { topic := topic, depth := depth, messages := initMessages topic,
    phase := Phase.validating }

/-- One step of the orchestrator.  Returns the successor state and the
observable event of the step, if any.

* `validating`: Modelled from the spec: a negative depth or an empty topic is
  rejected with `InvalidInput` before any oracle call (spec sections 4.1 and
  7); the snippet elides validation.
* `consulting`: run the oracle on the current history and append its response
  as an assistant entry (snippet lines 20-21); if it carries decomposition
  requests and `depth > 0`, enter fan-out (lines 24-32); if it carries
  requests but the depth budget is exhausted, Modelled from the spec: force
  termination by treating the response as a plain answer (spec section 4.1,
  depth 0 never spawns); otherwise return the response's content (lines
  39-42).
* `spawning`: create one handle per pending request, pairing it with the
  request (lines 28-32); when none are pending, begin fan-in.
* `awaiting`: await the handles in creation order; on success append one
  tool-result entry carrying the originating request's identifier (lines
  35-38); on failure fail the whole invocation (fail-fast, `yield* handle`
  rethrows); when all are consumed, loop back to consult.
* `done` / `failed`: terminal, absorbing. -/
def step (env : Env) (s : InvState) : InvState × Option Event :=
  match s.phase with
  | Phase.validating =>
      if s.depth < 0 ∨ s.topic = "" then
        ({ s with phase := Phase.failed Failure.invalidInput }, none)
      else
        ({ s with phase := Phase.consulting }, none)
  | Phase.consulting =>
      let r := env.oracle s.messages
      let msgs := s.messages ++ [Message.assistant r.content r.tool_calls]
      if r.tool_calls = [] then
        ({ s with messages := msgs, phase := Phase.done r.content },
         some Event.consult)
      else if s.depth > 0 then
        ({ s with messages := msgs, phase := Phase.spawning r.tool_calls [] },
         some Event.consult)
      else
        ({ s with messages := msgs, phase := Phase.done r.content },
         some Event.consult)
  | Phase.spawning pending handles =>
      match pending with
      | [] => ({ s with phase := Phase.awaiting handles }, none)
      | tc :: rest =>
          ({ s with phase := Phase.spawning rest (handles ++ [(tc, ⟨tc.subtopic, s.depth - 1⟩)]) },
           some (Event.spawn tc.id tc.subtopic (s.depth - 1)))
  | Phase.awaiting handles =>
      match handles with
      | [] => ({ s with phase := Phase.consulting }, none)
      | (tc, h) :: rest =>
          match env.childResult h.subtopic h.depth with
          | Except.ok r =>
              ({ s with messages := s.messages ++ [Message.tool tc.id r], phase := Phase.awaiting rest },
               some (Event.awaitChild tc.id))
          | Except.error e =>
              ({ s with phase := Phase.failed e },
               some (Event.childFailed tc.id))
  | Phase.done _ => (s, none)
  | Phase.failed _ => (s, none)

/-- The successor state of one step. -/
def stepState (env : Env) (s : InvState) : InvState :=
  (step env s).1

/-- Iterate the orchestrator for `n` steps. -/
def run (env : Env) : InvState → Nat → InvState
  | s, 0 => s
  | s, n + 1 => run env (stepState env s) n

/-- The events emitted during the first `n` steps from `s`. -/
def events (env : Env) : InvState → Nat → List Event
  | _, 0 => []
  | s, n + 1 => (step env s).2.toList ++ events env (stepState env s) n

/-- The result of an invocation state: `some` once the state is terminal. -/
def resultOf (s : InvState) : Option (Except Failure String) :=
  match s.phase with
  | Phase.done r => some (Except.ok r)
  | Phase.failed e => some (Except.error e)
  | _ => none

/-- The outcome of `research(topic, depth)` after `fuel` steps: the entry
point of the embedded orchestrator. -/
def research (env : Env) (topic : String) (depth : Int) (fuel : Nat) :
    Option (Except Failure String) :=
  resultOf (run env (researchInit topic depth) fuel)

/-- A spawn event of any identifier, subtopic and depth: used to select the
spawn events of a trace. -/
def isSpawnEvent : Event → Bool
  | Event.spawn _ _ _ => true
  | _ => false

/-- The result of the child at position `j` of the current fan-out batch, as
recorded in a chronological completion log `cs`: `cs` lists `(position,
result)` pairs in the order the children actually completed. -/
def findResult (cs : List (Nat × String)) (j : Nat) : Option String :=
  match cs with
  | [] => none
  | c :: rest => if c.1 = j then some c.2 else findResult rest j

/-- Modelled from the spec: the fan-in loop (snippet lines 34-38) of a batch
whose children completed in the chronological order recorded by `cs`.  The
loop walks the handles in creation order (position `j` onward), reads each
child's result from the completion log, and appends one tool-result entry per
request; `none` if some child never completed. -/
def fanInFrom (cs : List (Nat × String)) : Nat → List ToolCall → Option (List Message)
  | _, [] => some []
  | j, tc :: rest =>
      match findResult cs j with
      | none => none
      | some r => (fanInFrom cs (j + 1) rest).map (fun ms => Message.tool tc.id r :: ms)

/-- The tool-result entries appended by a fan-in step over the requests
`tcs`, given the completion log `cs` (see `fanInFrom`). -/
def fanInHistory (tcs : List ToolCall) (cs : List (Nat × String)) : Option (List Message) :=
  fanInFrom cs 0 tcs

/-- The tool-result entries of a batch in request order, when the child at
position `j` returned `f j`. -/
def toolEntriesFrom (f : Nat → String) : Nat → List ToolCall → List Message
  | _, [] => []
  | j, tc :: rest => Message.tool tc.id (f j) :: toolEntriesFrom f (j + 1) rest

/-- The handle created for a decomposition request by an invocation at
depth `d`: the child is invoked with `depth - 1` (snippet line 30). -/
def spawnHandle (d : Int) (tc : ToolCall) : ToolCall × Handle :=
  (tc, ⟨tc.subtopic, d - 1⟩)

/-- An oracle that immediately gives a plain answer, with children that
always succeed. -/
def envA : Env :=
  { oracle := fun _ => ⟨"A", []⟩, childResult := fun _ _ => Except.ok "r" }

/-- An oracle that requests decomposition on every consultation. -/
def envB : Env :=
  { oracle := fun _ => ⟨"", [⟨"c1", "s1"⟩]⟩, childResult := fun _ _ => Except.ok "r" }

/-- An oracle that requests two subtopics on every consultation, with
children answering from their subtopic. -/
def envW : Env :=
  { oracle := fun _ => ⟨"plan", [⟨"c1", "s1"⟩, ⟨"c2", "s2"⟩]⟩,
    childResult := fun sub _ => Except.ok ("ans-" ++ sub) }

/-- An environment in which the child researching subtopic `s2` fails and
all other children succeed. -/
def envF : Env :=
  { oracle := fun _ => ⟨"plan", [⟨"c1", "s1"⟩, ⟨"c2", "s2"⟩, ⟨"c3", "s3"⟩]⟩,
    childResult := fun sub _ =>
      if sub = "s2" then Except.error (Failure.childFailure "s2" "boom")
      else Except.ok ("ans-" ++ sub) }

/-! ### Generic lemmas about iterating the orchestrator -/

theorem run_add (env : Env) (a b : Nat) (s : InvState) :
    run env s (a + b) = run env (run env s a) b := by
  induction a generalizing s with
  | zero => rw [Nat.zero_add]; rfl
  | succ k ih =>
      rw [show k + 1 + b = (k + b) + 1 from by omega]
      exact ih (stepState env s)

theorem events_add (env : Env) (a b : Nat) (s : InvState) :
    events env s (a + b) = events env s a ++ events env (run env s a) b := by
  induction a generalizing s with
  | zero => rw [Nat.zero_add]; rfl
  | succ k ih =>
      rw [show k + 1 + b = (k + b) + 1 from by omega]
      show (step env s).2.toList ++ events env (stepState env s) (k + b) = _
      rw [ih (stepState env s), ← List.append_assoc]
      rfl

theorem step_terminal (env : Env) (s : InvState) (h : (resultOf s).isSome) :
    step env s = (s, none) := by
  unfold resultOf at h
  unfold step
  cases hp : s.phase <;> simp [hp] at h ⊢

theorem run_terminal (env : Env) (s : InvState) (h : (resultOf s).isSome)
    (n : Nat) : run env s n = s := by
  induction n with
  | zero => rfl
  | succ k ih =>
      show run env (stepState env s) k = s
      rw [show stepState env s = s from congrArg Prod.fst (step_terminal env s h)]
      exact ih

theorem events_terminal (env : Env) (s : InvState) (h : (resultOf s).isSome)
    (n : Nat) : events env s n = [] := by
  induction n with
  | zero => rfl
  | succ k ih =>
      show (step env s).2.toList ++ events env (stepState env s) k = []
      rw [step_terminal env s h]
      rw [show stepState env s = s from congrArg Prod.fst (step_terminal env s h)]
      simpa using ih

theorem run_spawning (env : Env) (t : String) (d : Int) (msgs : List Message)
    (pending : List ToolCall) :
    ∀ handles : List (ToolCall × Handle),
    run env ⟨t, d, msgs, Phase.spawning pending handles⟩ pending.length
      = ⟨t, d, msgs, Phase.spawning [] (handles ++ pending.map (spawnHandle d))⟩
    ∧ events env ⟨t, d, msgs, Phase.spawning pending handles⟩ pending.length
      = pending.map (fun tc => Event.spawn tc.id tc.subtopic (d - 1)) := by
  induction pending with
  | nil => intro handles; refine ⟨?_, rfl⟩; simp [run]
  | cons tc rest ih =>
      intro handles
      have hstep : stepState env ⟨t, d, msgs, Phase.spawning (tc :: rest) handles⟩
          = ⟨t, d, msgs, Phase.spawning rest (handles ++ [spawnHandle d tc])⟩ := rfl
      constructor
      · show run env (stepState env _) rest.length = _
        rw [hstep, (ih (handles ++ [spawnHandle d tc])).1]
        simp
      · show (step env _).2.toList ++ events env (stepState env _) rest.length = _
        rw [hstep, (ih (handles ++ [spawnHandle d tc])).2]
        rfl

theorem run_awaiting_ok (env : Env) (t : String) (d : Int)
    (res : ToolCall × Handle → String) (pre : List (ToolCall × Handle)) :
    ∀ (rest : List (ToolCall × Handle)) (msgs : List Message),
    (∀ p ∈ pre, env.childResult p.2.subtopic p.2.depth = Except.ok (res p)) →
    run env ⟨t, d, msgs, Phase.awaiting (pre ++ rest)⟩ pre.length
      = ⟨t, d, msgs ++ pre.map (fun p => Message.tool p.1.id (res p)), Phase.awaiting rest⟩
    ∧ events env ⟨t, d, msgs, Phase.awaiting (pre ++ rest)⟩ pre.length
      = pre.map (fun p => Event.awaitChild p.1.id) := by
  induction pre with
  | nil => intro rest msgs _; refine ⟨?_, rfl⟩; simp [run]
  | cons p pre' ih =>
      intro rest msgs hok
      obtain ⟨tc, h⟩ := p
      simp only [List.cons_append]
      have hr : env.childResult h.subtopic h.depth = Except.ok (res (tc, h)) :=
        hok (tc, h) (List.mem_cons_self _ _)
      have hstep : step env ⟨t, d, msgs, Phase.awaiting ((tc, h) :: (pre' ++ rest))⟩
          = (⟨t, d, msgs ++ [Message.tool tc.id (res (tc, h))], Phase.awaiting (pre' ++ rest)⟩,
             some (Event.awaitChild tc.id)) := by
        simp [step, hr]
      have hok' : ∀ p ∈ pre', env.childResult p.2.subtopic p.2.depth = Except.ok (res p) :=
        fun p hp => hok p (List.mem_cons_of_mem _ hp)
      have ih' := ih rest (msgs ++ [Message.tool tc.id (res (tc, h))]) hok'
      constructor
      · show run env (stepState env _) pre'.length = _
        rw [show stepState env ⟨t, d, msgs, Phase.awaiting ((tc, h) :: (pre' ++ rest))⟩
              = ⟨t, d, msgs ++ [Message.tool tc.id (res (tc, h))], Phase.awaiting (pre' ++ rest)⟩
            from congrArg Prod.fst hstep]
        rw [ih'.1]
        simp
      · show (step env _).2.toList ++ events env (stepState env _) pre'.length = _
        rw [hstep]
        rw [show stepState env ⟨t, d, msgs, Phase.awaiting ((tc, h) :: (pre' ++ rest))⟩
              = ⟨t, d, msgs ++ [Message.tool tc.id (res (tc, h))], Phase.awaiting (pre' ++ rest)⟩
            from congrArg Prod.fst hstep]
        rw [ih'.2]
        rfl

theorem step_consult_spawn (env : Env) (t : String) (d : Int) (msgs : List Message)
    (hd : 0 < d) (htc : (env.oracle msgs).tool_calls ≠ []) :
    step env ⟨t, d, msgs, Phase.consulting⟩
      = (⟨t, d, msgs ++ [Message.assistant (env.oracle msgs).content (env.oracle msgs).tool_calls],
          Phase.spawning (env.oracle msgs).tool_calls []⟩, some Event.consult) := by
  simp [step, htc, hd]

theorem run_spawn_to_await (env : Env) (t : String) (d : Int) (m1 : List Message)
    (tcs : List ToolCall) :
    run env ⟨t, d, m1, Phase.spawning tcs []⟩ (tcs.length + 1)
      = ⟨t, d, m1, Phase.awaiting (tcs.map (spawnHandle d))⟩
    ∧ events env ⟨t, d, m1, Phase.spawning tcs []⟩ (tcs.length + 1)
      = tcs.map (fun tc => Event.spawn tc.id tc.subtopic (d - 1)) := by
  have h := run_spawning env t d m1 tcs []
  constructor
  · rw [run_add env tcs.length 1, h.1]
    show stepState env _ = _
    simp [stepState, step]
  · rw [events_add env tcs.length 1, h.2, h.1]
    simp [step, events]

theorem run_await_to_consult (env : Env) (t : String) (d : Int) (m1 : List Message)
    (handles : List (ToolCall × Handle)) (res' : ToolCall × Handle → String)
    (hok : ∀ p ∈ handles, env.childResult p.2.subtopic p.2.depth = Except.ok (res' p)) :
    run env ⟨t, d, m1, Phase.awaiting handles⟩ (handles.length + 1)
      = ⟨t, d, m1 ++ handles.map (fun p => Message.tool p.1.id (res' p)), Phase.consulting⟩
    ∧ events env ⟨t, d, m1, Phase.awaiting handles⟩ (handles.length + 1)
      = handles.map (fun p => Event.awaitChild p.1.id) := by
  have h := run_awaiting_ok env t d res' handles [] m1 hok
  rw [List.append_nil] at h
  constructor
  · rw [run_add env handles.length 1, h.1]
    rfl
  · rw [events_add env handles.length 1, h.2, h.1]
    simp [step, events]

/-- Running one whole fan-out/fan-in round from a consult state whose oracle
response carries decomposition requests, at positive depth, with every child
succeeding: `2n + 3` steps later the invocation is back at the consult phase,
the history extended by the assistant entry and one tool-result entry per
request in request order, and the trace is the consult event, then all spawn
events, then all await events. -/
theorem consult_batch (env : Env) (t : String) (d : Int) (msgs : List Message)
    (res : ToolCall → String) (hd : 0 < d)
    (htc : (env.oracle msgs).tool_calls ≠ [])
    (hok : ∀ tc ∈ (env.oracle msgs).tool_calls,
      env.childResult tc.subtopic (d - 1) = Except.ok (res tc)) :
    run env ⟨t, d, msgs, Phase.consulting⟩ (2 * (env.oracle msgs).tool_calls.length + 3)
      = ⟨t, d, msgs ++ [Message.assistant (env.oracle msgs).content (env.oracle msgs).tool_calls]
             ++ (env.oracle msgs).tool_calls.map (fun tc => Message.tool tc.id (res tc)),
          Phase.consulting⟩
    ∧ events env ⟨t, d, msgs, Phase.consulting⟩ (2 * (env.oracle msgs).tool_calls.length + 3)
      = Event.consult ::
          ((env.oracle msgs).tool_calls.map (fun tc => Event.spawn tc.id tc.subtopic (d - 1))
            ++ (env.oracle msgs).tool_calls.map (fun tc => Event.awaitChild tc.id)) := by
  have hAB : run env ⟨t, d, msgs, Phase.consulting⟩ 1
      = ⟨t, d, msgs ++ [Message.assistant (env.oracle msgs).content (env.oracle msgs).tool_calls],
          Phase.spawning (env.oracle msgs).tool_calls []⟩ := by
    show stepState env _ = _
    rw [stepState, step_consult_spawn env t d msgs hd htc]
  have eAB : events env ⟨t, d, msgs, Phase.consulting⟩ 1 = [Event.consult] := by
    show (step env _).2.toList ++ _ = _
    rw [step_consult_spawn env t d msgs hd htc]
    rfl
  have hBC := run_spawn_to_await env t d
    (msgs ++ [Message.assistant (env.oracle msgs).content (env.oracle msgs).tool_calls])
    (env.oracle msgs).tool_calls
  have hCD := run_await_to_consult env t d
    (msgs ++ [Message.assistant (env.oracle msgs).content (env.oracle msgs).tool_calls])
    ((env.oracle msgs).tool_calls.map (spawnHandle d)) (fun q => res q.1)
    (by
      intro p hp
      obtain ⟨tc, htcmem, rfl⟩ := List.mem_map.mp hp
      simpa [spawnHandle] using hok tc htcmem)
  have hmapm : ((env.oracle msgs).tool_calls.map (spawnHandle d)).map
        (fun p => Message.tool p.1.id ((fun q => res q.1) p))
      = (env.oracle msgs).tool_calls.map (fun tc => Message.tool tc.id (res tc)) := by
    rw [List.map_map]; rfl
  have hmape : ((env.oracle msgs).tool_calls.map (spawnHandle d)).map
        (fun p => Event.awaitChild p.1.id)
      = (env.oracle msgs).tool_calls.map (fun tc => Event.awaitChild tc.id) := by
    rw [List.map_map]; rfl
  have hlen : ((env.oracle msgs).tool_calls.map (spawnHandle d)).length
      = (env.oracle msgs).tool_calls.length := List.length_map _ _
  have hsplit : 2 * (env.oracle msgs).tool_calls.length + 3
      = 1 + (((env.oracle msgs).tool_calls.length + 1)
          + (((env.oracle msgs).tool_calls.map (spawnHandle d)).length + 1)) := by
    rw [hlen]; ring
  constructor
  · rw [hsplit, run_add, hAB, run_add, hBC.1, hCD.1, hmapm]
  · rw [hsplit, events_add, eAB, hAB, events_add, hBC.2, hBC.1, hCD.2, hmape]
    rfl

theorem step_validating_ok (env : Env) (t : String) (d : Int)
    (h : ¬(d < 0 ∨ t = "")) :
    step env (researchInit t d) = (⟨t, d, initMessages t, Phase.consulting⟩, none) := by
  simp only [researchInit, step, if_neg h]

theorem step_validating_bad (env : Env) (t : String) (d : Int)
    (h : d < 0 ∨ t = "") :
    step env (researchInit t d)
      = (⟨t, d, initMessages t, Phase.failed Failure.invalidInput⟩, none) := by
  simp only [researchInit, step, if_pos h]

theorem step_consult_done (env : Env) (t : String) (d : Int) (msgs : List Message)
    (h : (env.oracle msgs).tool_calls = [] ∨ ¬ 0 < d) :
    step env ⟨t, d, msgs, Phase.consulting⟩
      = (⟨t, d, msgs ++ [Message.assistant (env.oracle msgs).content (env.oracle msgs).tool_calls],
          Phase.done (env.oracle msgs).content⟩, some Event.consult) := by
  by_cases htc : (env.oracle msgs).tool_calls = []
  · simp [step, htc]
  · rcases h with h | h
    · exact absurd h htc
    · simp [step, htc, h]

theorem events_one_consult (env : Env) (t : String) (d : Int) (msgs : List Message) :
    events env ⟨t, d, msgs, Phase.consulting⟩ 1 = [Event.consult] := by
  have h : (step env ⟨t, d, msgs, Phase.consulting⟩).2 = some Event.consult := by
    simp only [step]
    split_ifs <;> rfl
  show (step env _).2.toList ++ _ = _
  rw [h]
  rfl

/-! ### The claims -/

/-- C1: an invocation at depth 0 with a nonempty topic, against an oracle
that requests decomposition on every consultation, still terminates after a
single consultation with a plain answer (the response's textual content): it
emits no spawn event, and its terminal state is absorbing, so no child
invocation is ever created.  The depth-0 forced-termination policy is
modelled from the spec (section 4.1: depth 0 never spawns); the snippet
elides how the code prevents depth-0 spawning. -/
theorem depth_zero_never_spawns (env : Env) (topic : String) (htopic : topic ≠ "")
    (_halways : ∀ h : List Message, (env.oracle h).tool_calls ≠ []) :
    research env topic 0 3 = some (Except.ok (env.oracle (initMessages topic)).content)
    ∧ events env (researchInit topic 0) 3 = [Event.consult]
    ∧ step env (run env (researchInit topic 0) 3) = (run env (researchInit topic 0) 3, none) := by
  have hval : ¬((0 : Int) < 0 ∨ topic = "") := by
    rintro (hc | hc)
    · exact absurd hc (lt_irrefl 0)
    · exact htopic hc
  have h1 := step_validating_ok env topic 0 hval
  have h2 := step_consult_done env topic 0 (initMessages topic)
    (Or.inr (lt_irrefl 0))
  have hterm : resultOf (⟨topic, 0, initMessages topic
      ++ [Message.assistant (env.oracle (initMessages topic)).content
            (env.oracle (initMessages topic)).tool_calls],
      Phase.done (env.oracle (initMessages topic)).content⟩ : InvState)
      = some (Except.ok (env.oracle (initMessages topic)).content) := rfl
  have hrun : run env (researchInit topic 0) 3
      = ⟨topic, 0, initMessages topic
          ++ [Message.assistant (env.oracle (initMessages topic)).content
                (env.oracle (initMessages topic)).tool_calls],
          Phase.done (env.oracle (initMessages topic)).content⟩ := by
    rw [show (3 : Nat) = 1 + (1 + 1) from rfl, run_add]
    rw [show run env (researchInit topic 0) 1
        = ⟨topic, 0, initMessages topic, Phase.consulting⟩ from congrArg Prod.fst h1]
    rw [run_add]
    rw [show run env ⟨topic, 0, initMessages topic, Phase.consulting⟩ 1
        = ⟨topic, 0, initMessages topic
            ++ [Message.assistant (env.oracle (initMessages topic)).content
                  (env.oracle (initMessages topic)).tool_calls],
            Phase.done (env.oracle (initMessages topic)).content⟩ from
      congrArg Prod.fst h2]
    exact run_terminal env _ (by rw [hterm]; rfl) 1
  refine ⟨?_, ?_, ?_⟩
  · rw [research, hrun, hterm]
  · rw [show (3 : Nat) = 1 + 2 from rfl, events_add]
    rw [show events env (researchInit topic 0) 1 = [] from by
      show (step env _).2.toList ++ _ = _
      rw [h1]; rfl]
    rw [show run env (researchInit topic 0) 1
        = ⟨topic, 0, initMessages topic, Phase.consulting⟩ from congrArg Prod.fst h1]
    rw [show (2 : Nat) = 1 + 1 from rfl, events_add]
    rw [events_one_consult]
    rw [show run env ⟨topic, 0, initMessages topic, Phase.consulting⟩ 1
        = ⟨topic, 0, initMessages topic
            ++ [Message.assistant (env.oracle (initMessages topic)).content
                  (env.oracle (initMessages topic)).tool_calls],
            Phase.done (env.oracle (initMessages topic)).content⟩ from
      congrArg Prod.fst h2]
    rw [events_terminal env _ (by rw [hterm]; rfl) 1]
    rfl
  · rw [hrun]
    exact step_terminal env _ (by rw [hterm]; rfl)

/-- C1 witness: with the always-decomposing oracle `envB`, the invocation of
topic "X" at depth 0 returns the response's content after one consultation,
spawning nothing. -/
theorem depth_zero_never_spawns_witness :
    research envB "X" 0 3 = some (Except.ok "")
    ∧ events envB (researchInit "X" 0) 3 = [Event.consult]
    ∧ step envB (run envB (researchInit "X" 0) 3) = (run envB (researchInit "X" 0) 3, none) :=
  depth_zero_never_spawns envB "X" (by decide) (fun _ => by simp [envB])

/-- C7: an invocation with a negative depth or an empty topic fails with
`InvalidInput` at the validation step: no event at all (in particular no
oracle consultation and no spawn) is ever emitted, and from the first step
on the state is the `InvalidInput` failure.  Modelled from the spec
(section 7): the snippet elides input validation. -/
theorem invalid_input_rejected (env : Env) (t : String) (d : Int)
    (hbad : d < 0 ∨ t = "") :
    (∀ n, events env (researchInit t d) n = [])
    ∧ ∀ n, resultOf (run env (researchInit t d) (n + 1))
        = some (Except.error Failure.invalidInput) := by
  have h1 := step_validating_bad env t d hbad
  have hterm : resultOf (⟨t, d, initMessages t, Phase.failed Failure.invalidInput⟩ : InvState)
      = some (Except.error Failure.invalidInput) := rfl
  constructor
  · intro n
    cases n with
    | zero => rfl
    | succ k =>
        show (step env _).2.toList ++ events env (stepState env _) k = []
        rw [h1]
        rw [show stepState env (researchInit t d)
            = ⟨t, d, initMessages t, Phase.failed Failure.invalidInput⟩ from
          congrArg Prod.fst h1]
        rw [events_terminal env _ (by rw [hterm]; rfl) k]
        rfl
  · intro n
    show resultOf (run env (stepState env _) n) = _
    rw [show stepState env (researchInit t d)
        = ⟨t, d, initMessages t, Phase.failed Failure.invalidInput⟩ from
      congrArg Prod.fst h1]
    rw [run_terminal env _ (by rw [hterm]; rfl) n, hterm]

/-- C7 witness: invoking with depth -1 emits no event and fails with
`InvalidInput`. -/
theorem invalid_input_rejected_witness :
    events envA (researchInit "X" (-1)) 2 = []
    ∧ resultOf (run envA (researchInit "X" (-1)) 3)
        = some (Except.error Failure.invalidInput) :=
  ⟨(invalid_input_rejected envA "X" (-1) (Or.inl (by decide))).1 2,
   (invalid_input_rejected envA "X" (-1) (Or.inl (by decide))).2 2⟩

/-- C9: two-run determinism of the orchestrator in its oracle and child
outputs.  If a full run of `n` steps from state `s` reaches a result `r`,
then a run suspended after any `k ≤ n` steps (any suspension point:
post-consult, mid-await, ...) and resumed from the persisted state under the
same environment reaches the same result `r` in the remaining steps. -/
theorem replay_resumption (env : Env) (s : InvState) (k n : Nat)
    (r : Except Failure String) (hk : k ≤ n)
    (hres : resultOf (run env s n) = some r) :
    resultOf (run env (run env s k) (n - k)) = some r := by
  rw [← run_add, Nat.add_sub_cancel' hk]
  exact hres

/-- C9 witness: the depth-0 run of `envA` suspended after 1 step and resumed
for the remaining 2 steps yields the uninterrupted run's result "A". -/
theorem replay_resumption_witness :
    resultOf (run envA (run envA (researchInit "X" 0) 1) 2) = some (Except.ok "A") :=
  replay_resumption envA (researchInit "X" 0) 1 3 (Except.ok "A") (by decide) (by rfl)

/-- C10 counterexample: the claim says every invocation consults the oracle
at least once, for every topic; but the invocation with the empty topic ""
(depth 0) terminates in the `InvalidInput` failure after one step, having
emitted no event at all — its terminal state is absorbing, so no oracle
consultation ever occurs.  (This matches C7 / spec section 7, which rejects
an empty topic before any oracle call.) -/
theorem no_consult_on_empty_topic :
    resultOf (run envA (researchInit "" 0) 1) = some (Except.error Failure.invalidInput)
    ∧ events envA (researchInit "" 0) 1 = []
    ∧ step envA (run envA (researchInit "" 0) 1) = (run envA (researchInit "" 0) 1, none) :=
  ⟨rfl, rfl, rfl⟩

/-- C10 (amended): every invocation whose inputs pass validation (nonempty
topic, non-negative depth) consults the oracle, and its first observable
action is that oracle consultation: the first step emits no event, the
first emitted event is `consult`, and no result is returned before the
first oracle response. -/
theorem first_action_is_consult (env : Env) (t : String) (d : Int)
    (ht : t ≠ "") (hd : 0 ≤ d) :
    events env (researchInit t d) 1 = []
    ∧ events env (researchInit t d) 2 = [Event.consult]
    ∧ resultOf (researchInit t d) = none
    ∧ resultOf (run env (researchInit t d) 1) = none := by
  have hval : ¬(d < 0 ∨ t = "") := by
    rintro (hc | hc)
    · omega
    · exact ht hc
  have h1 := step_validating_ok env t d hval
  refine ⟨?_, ?_, rfl, ?_⟩
  · show (step env _).2.toList ++ _ = _
    rw [h1]; rfl
  · rw [show (2 : Nat) = 1 + 1 from rfl, events_add]
    rw [show events env (researchInit t d) 1 = [] from by
      show (step env _).2.toList ++ _ = _
      rw [h1]; rfl]
    rw [show run env (researchInit t d) 1
        = ⟨t, d, initMessages t, Phase.consulting⟩ from congrArg Prod.fst h1]
    rw [events_one_consult]
    rfl
  · show resultOf (stepState env _) = none
    rw [show stepState env (researchInit t d)
        = ⟨t, d, initMessages t, Phase.consulting⟩ from congrArg Prod.fst h1]
    rfl

/-- C10 (amended) witness at topic "X", depth 1. -/
theorem first_action_is_consult_witness :
    events envW (researchInit "X" 1) 1 = []
    ∧ events envW (researchInit "X" 1) 2 = [Event.consult]
    ∧ resultOf (researchInit "X" 1) = none
    ∧ resultOf (run envW (researchInit "X" 1) 1) = none :=
  first_action_is_consult envW "X" 1 (by decide) (by decide)

theorem step_messages_append (env : Env) (s : InvState) :
    ∃ t, (stepState env s).messages = s.messages ++ t := by
  obtain ⟨tt, dd, mm, ph⟩ := s
  cases ph with
  | validating =>
      by_cases hb : dd < 0 ∨ tt = ""
      · exact ⟨[], by simp [stepState, step, hb]⟩
      · exact ⟨[], by simp [stepState, step, hb]⟩
  | consulting =>
      refine ⟨[Message.assistant (env.oracle mm).content (env.oracle mm).tool_calls], ?_⟩
      simp only [stepState, step]
      split_ifs <;> rfl
  | spawning pending handles =>
      cases pending with
      | nil => exact ⟨[], by simp [stepState, step]⟩
      | cons tc rest => exact ⟨[], by simp [stepState, step]⟩
  | awaiting handles =>
      cases handles with
      | nil => exact ⟨[], by simp [stepState, step]⟩
      | cons p rest =>
          obtain ⟨tc, hh⟩ := p
          cases hc : env.childResult hh.subtopic hh.depth with
          | ok rr => exact ⟨[Message.tool tc.id rr], by simp [stepState, step, hc]⟩
          | error e => exact ⟨[], by simp [stepState, step, hc]⟩
  | done rr => exact ⟨[], by simp [stepState, step]⟩
  | failed e => exact ⟨[], by simp [stepState, step]⟩

theorem run_messages_append (env : Env) (s : InvState) (n : Nat) :
    ∃ t, (run env s n).messages = s.messages ++ t := by
  induction n generalizing s with
  | zero => exact ⟨[], by simp [run]⟩
  | succ k ih =>
      obtain ⟨t1, h1⟩ := step_messages_append env s
      obtain ⟨t2, h2⟩ := ih (stepState env s)
      refine ⟨t1 ++ t2, ?_⟩
      show (run env (stepState env s) k).messages = _
      rw [h2, h1, List.append_assoc]

/-- C8: the conversation history is append-only within one invocation: every
step of the orchestrator extends `messages` on the right (never modifying,
removing or reordering existing entries); a consult step appends exactly the
one assistant entry holding the oracle's response; hence any number of steps
only appends a suffix. -/
theorem history_append_only (env : Env) (s : InvState) :
    (∃ t, (stepState env s).messages = s.messages ++ t)
    ∧ (s.phase = Phase.consulting →
        (stepState env s).messages = s.messages
          ++ [Message.assistant (env.oracle s.messages).content (env.oracle s.messages).tool_calls])
    ∧ ∀ n, ∃ t, (run env s n).messages = s.messages ++ t := by
  refine ⟨step_messages_append env s, ?_, fun n => run_messages_append env s n⟩
  intro hp
  simp only [stepState, step, hp]
  split_ifs <;> rfl

/-- C8 witness: one consult step of `envA` from the initial history appends
exactly the assistant entry. -/
theorem history_append_only_witness :
    (stepState envA ⟨"X", 0, initMessages "X", Phase.consulting⟩).messages
      = initMessages "X" ++ [Message.assistant "A" []] :=
  (history_append_only envA ⟨"X", 0, initMessages "X", Phase.consulting⟩).2.1 rfl

/-- C4: a response with no decomposition requests makes the invocation
return the response's textual content (first conjunct); a successful result
can only arise at a consult step and always equals the textual content of
the response the oracle just gave — the sole successful-termination path
(second conjunct; at exhausted depth the response is treated as a plain
answer, per spec section 4.1, and its content is returned all the same);
and the scenario: topic "X", depth 0, oracle answering "A" yields result
"A" with a trace of one consultation and no spawn (last conjuncts). -/
theorem terminal_answer_sole_exit (env : Env) (t : String) (d : Int)
    (msgs : List Message) :
    ((env.oracle msgs).tool_calls = [] →
      step env ⟨t, d, msgs, Phase.consulting⟩
        = (⟨t, d, msgs ++ [Message.assistant (env.oracle msgs).content (env.oracle msgs).tool_calls],
            Phase.done (env.oracle msgs).content⟩, some Event.consult))
    ∧ (∀ s : InvState, ∀ r : String,
        resultOf s = none → resultOf (stepState env s) = some (Except.ok r) →
        s.phase = Phase.consulting ∧ r = (env.oracle s.messages).content)
    ∧ research envA "X" 0 3 = some (Except.ok "A")
    ∧ events envA (researchInit "X" 0) 3 = [Event.consult] := by
  refine ⟨fun h => step_consult_done env t d msgs (Or.inl h), ?_, rfl, rfl⟩
  intro s r h0 h1
  obtain ⟨tt, dd, mm, ph⟩ := s
  cases ph with
  | validating =>
      exfalso
      by_cases hb : dd < 0 ∨ tt = ""
      · simp [stepState, step, hb, resultOf] at h1
      · simp [stepState, step, hb, resultOf] at h1
  | consulting =>
      refine ⟨rfl, ?_⟩
      simp only [stepState, step] at h1
      split_ifs at h1 with htc hd
      · simp [resultOf] at h1
        exact h1.symm
      · simp [resultOf] at h1
      · simp [resultOf] at h1
        exact h1.symm
  | spawning pending handles =>
      exfalso
      cases pending with
      | nil => simp [stepState, step, resultOf] at h1
      | cons tc rest => simp [stepState, step, resultOf] at h1
  | awaiting handles =>
      exfalso
      cases handles with
      | nil => simp [stepState, step, resultOf] at h1
      | cons p rest =>
          obtain ⟨tc, hh⟩ := p
          cases hc : env.childResult hh.subtopic hh.depth with
          | ok rr => simp [stepState, step, hc, resultOf] at h1
          | error e => simp [stepState, step, hc, resultOf] at h1
  | done rr => simp [resultOf] at h0
  | failed e => simp [resultOf] at h0

/-- C4 witness: at the concrete plain-answer oracle `envA`, one consult step
from the initial history of topic "X" returns content "A". -/
theorem terminal_answer_sole_exit_witness :
    step envA ⟨"X", 0, initMessages "X", Phase.consulting⟩
      = (⟨"X", 0, initMessages "X" ++ [Message.assistant "A" []], Phase.done "A"⟩,
         some Event.consult) :=
  (terminal_answer_sole_exit envA "X" 0 (initMessages "X")).1 rfl

/-- C6: all spawn handles of one fan-out batch are created before any of
them is awaited.  From a consult state whose response carries the requests
`tcs` (at positive depth), after `tcs.length + 2` steps the invocation has
created all `tcs.length` handles, paired in order with their requests, and
only now enters the awaiting phase; the trace so far is the consultation
followed by exactly the spawn events — it contains no await event, so no
await precedes the creation of any sibling handle. -/
theorem all_spawns_before_any_await (env : Env) (t : String) (d : Int)
    (msgs : List Message) (hd : 0 < d) (htc : (env.oracle msgs).tool_calls ≠ []) :
    run env ⟨t, d, msgs, Phase.consulting⟩ ((env.oracle msgs).tool_calls.length + 2)
      = ⟨t, d, msgs ++ [Message.assistant (env.oracle msgs).content (env.oracle msgs).tool_calls],
          Phase.awaiting ((env.oracle msgs).tool_calls.map (spawnHandle d))⟩
    ∧ events env ⟨t, d, msgs, Phase.consulting⟩ ((env.oracle msgs).tool_calls.length + 2)
      = Event.consult
          :: (env.oracle msgs).tool_calls.map (fun tc => Event.spawn tc.id tc.subtopic (d - 1)) := by
  have hAB : run env ⟨t, d, msgs, Phase.consulting⟩ 1
      = ⟨t, d, msgs ++ [Message.assistant (env.oracle msgs).content (env.oracle msgs).tool_calls],
          Phase.spawning (env.oracle msgs).tool_calls []⟩ :=
    congrArg Prod.fst (step_consult_spawn env t d msgs hd htc)
  have hBC := run_spawn_to_await env t d
    (msgs ++ [Message.assistant (env.oracle msgs).content (env.oracle msgs).tool_calls])
    (env.oracle msgs).tool_calls
  have hsplit : (env.oracle msgs).tool_calls.length + 2
      = 1 + ((env.oracle msgs).tool_calls.length + 1) := by omega
  constructor
  · rw [hsplit, run_add, hAB, hBC.1]
  · rw [hsplit, events_add, events_one_consult, hAB, hBC.2]
    rfl

/-- C6 witness: `envW` requests two subtopics; four steps in, both handles
exist, the awaiting phase begins, and the trace is the consultation followed
by the two spawn events only. -/
theorem all_spawns_before_any_await_witness :
    run envW ⟨"X", 1, initMessages "X", Phase.consulting⟩ 4
      = ⟨"X", 1, initMessages "X" ++ [Message.assistant "plan" [⟨"c1", "s1"⟩, ⟨"c2", "s2"⟩]],
          Phase.awaiting [(⟨"c1", "s1"⟩, ⟨"s1", 0⟩), (⟨"c2", "s2"⟩, ⟨"s2", 0⟩)]⟩
    ∧ events envW ⟨"X", 1, initMessages "X", Phase.consulting⟩ 4
      = Event.consult :: [Event.spawn "c1" "s1" 0, Event.spawn "c2" "s2" 0] :=
  all_spawns_before_any_await envW "X" 1 (initMessages "X") (by decide) (by simp [envW])

/-- C2: one fan-out batch at depth `d > 0` whose oracle response carries the
requests `tcs` spawns exactly one child per request — the spawn events of
the round are exactly `tcs.map (spawn · at depth d - 1)`, so there are
`tcs.length` of them, each at depth `d - 1` — and the tool-result entries
appended for the children carry the identifiers of the requests that spawned
them, in order. -/
theorem fanout_one_child_per_request (env : Env) (t : String) (d : Int)
    (msgs : List Message) (res : ToolCall → String) (hd : 0 < d)
    (htc : (env.oracle msgs).tool_calls ≠ [])
    (hok : ∀ tc ∈ (env.oracle msgs).tool_calls,
      env.childResult tc.subtopic (d - 1) = Except.ok (res tc)) :
    ((events env ⟨t, d, msgs, Phase.consulting⟩
        (2 * (env.oracle msgs).tool_calls.length + 3)).filter isSpawnEvent)
      = (env.oracle msgs).tool_calls.map (fun tc => Event.spawn tc.id tc.subtopic (d - 1))
    ∧ (run env ⟨t, d, msgs, Phase.consulting⟩
        (2 * (env.oracle msgs).tool_calls.length + 3)).messages
      = msgs ++ [Message.assistant (env.oracle msgs).content (env.oracle msgs).tool_calls]
          ++ (env.oracle msgs).tool_calls.map (fun tc => Message.tool tc.id (res tc)) := by
  obtain ⟨h1, h2⟩ := consult_batch env t d msgs res hd htc hok
  constructor
  · rw [h2]
    have hs : ((env.oracle msgs).tool_calls.map
          (fun tc => Event.spawn tc.id tc.subtopic (d - 1))).filter isSpawnEvent
        = (env.oracle msgs).tool_calls.map (fun tc => Event.spawn tc.id tc.subtopic (d - 1)) :=
      List.filter_eq_self.mpr (by
        intro a ha
        obtain ⟨tc, _, rfl⟩ := List.mem_map.mp ha
        rfl)
    have hw : ((env.oracle msgs).tool_calls.map
          (fun tc => Event.awaitChild tc.id)).filter isSpawnEvent = [] :=
      List.filter_eq_nil_iff.mpr (by
        intro a ha
        obtain ⟨tc, _, rfl⟩ := List.mem_map.mp ha
        simp [isSpawnEvent])
    simp only [List.filter_cons, List.filter_append, hs, hw]
    simp [isSpawnEvent]
  · rw [h1]

/-- C2 witness: `envW` requests two subtopics at depth 1; the round spawns
exactly the two children at depth 0 and appends tool entries tagged "c1",
"c2" in order. -/
theorem fanout_one_child_per_request_witness :
    ((events envW ⟨"X", 1, initMessages "X", Phase.consulting⟩ 7).filter isSpawnEvent)
      = [Event.spawn "c1" "s1" 0, Event.spawn "c2" "s2" 0]
    ∧ (run envW ⟨"X", 1, initMessages "X", Phase.consulting⟩ 7).messages
      = initMessages "X" ++ [Message.assistant "plan" [⟨"c1", "s1"⟩, ⟨"c2", "s2"⟩]]
          ++ [Message.tool "c1" "ans-s1", Message.tool "c2" "ans-s2"] :=
  fanout_one_child_per_request envW "X" 1 (initMessages "X")
    (fun tc => "ans-" ++ tc.subtopic) (by decide) (by simp [envW]) (fun tc _ => rfl)

/-- C5: fail-fast.  If, awaiting a batch in creation order, the children
before position `i` succeed and the child at position `i` fails with `e`,
then for every number of additional steps the parent is stuck in the failure
`e` — the parent's result is that first child failure; the trace after the
failure never grows (in particular no further oracle consultation happens),
and the siblings' already-computed results appear in no output (the result
is exactly `error e`). -/
theorem child_failure_fails_parent (env : Env) (t : String) (d : Int)
    (msgs : List Message) (pre : List (ToolCall × Handle)) (tc : ToolCall)
    (h : Handle) (post : List (ToolCall × Handle)) (e : Failure)
    (res' : ToolCall × Handle → String)
    (hok : ∀ p ∈ pre, env.childResult p.2.subtopic p.2.depth = Except.ok (res' p))
    (hfail : env.childResult h.subtopic h.depth = Except.error e) :
    ∀ n, resultOf (run env ⟨t, d, msgs, Phase.awaiting (pre ++ (tc, h) :: post)⟩
        (pre.length + 1 + n)) = some (Except.error e)
    ∧ events env ⟨t, d, msgs, Phase.awaiting (pre ++ (tc, h) :: post)⟩
        (pre.length + 1 + n)
      = pre.map (fun p => Event.awaitChild p.1.id) ++ [Event.childFailed tc.id] := by
  have h1 := run_awaiting_ok env t d res' pre ((tc, h) :: post) msgs hok
  have hstep : step env ⟨t, d, msgs ++ pre.map (fun p => Message.tool p.1.id (res' p)),
      Phase.awaiting ((tc, h) :: post)⟩
      = (⟨t, d, msgs ++ pre.map (fun p => Message.tool p.1.id (res' p)), Phase.failed e⟩,
         some (Event.childFailed tc.id)) := by
    simp [step, hfail]
  intro n
  have hrun : run env ⟨t, d, msgs, Phase.awaiting (pre ++ (tc, h) :: post)⟩
      (pre.length + 1 + n)
      = ⟨t, d, msgs ++ pre.map (fun p => Message.tool p.1.id (res' p)), Phase.failed e⟩ := by
    rw [show pre.length + 1 + n = pre.length + (1 + n) from by omega, run_add, h1.1,
      run_add env 1 n]
    rw [show run env ⟨t, d, msgs ++ pre.map (fun p => Message.tool p.1.id (res' p)),
          Phase.awaiting ((tc, h) :: post)⟩ 1
        = ⟨t, d, msgs ++ pre.map (fun p => Message.tool p.1.id (res' p)), Phase.failed e⟩ from
      congrArg Prod.fst hstep]
    exact run_terminal env
      ⟨t, d, msgs ++ pre.map (fun p => Message.tool p.1.id (res' p)), Phase.failed e⟩ rfl n
  constructor
  · rw [hrun]
    rfl
  · rw [show pre.length + 1 + n = pre.length + (1 + n) from by omega, events_add, h1.2, h1.1,
      events_add env 1 n]
    rw [show events env ⟨t, d, msgs ++ pre.map (fun p => Message.tool p.1.id (res' p)),
          Phase.awaiting ((tc, h) :: post)⟩ 1
        = [Event.childFailed tc.id] from by
      show (step env _).2.toList ++ _ = _
      rw [hstep]
      rfl]
    rw [show run env ⟨t, d, msgs ++ pre.map (fun p => Message.tool p.1.id (res' p)),
          Phase.awaiting ((tc, h) :: post)⟩ 1
        = ⟨t, d, msgs ++ pre.map (fun p => Message.tool p.1.id (res' p)), Phase.failed e⟩ from
      congrArg Prod.fst hstep]
    rw [events_terminal env
      ⟨t, d, msgs ++ pre.map (fun p => Message.tool p.1.id (res' p)), Phase.failed e⟩ rfl n]
    simp

/-- C5 witness: in `envF` the second of three children fails; the parent
ends in that failure, the trace awaits "c1", observes the failure of "c2",
and never consults again nor awaits "c3". -/
theorem child_failure_fails_parent_witness :
    resultOf (run envF ⟨"X", 1, [], Phase.awaiting
        [(⟨"c1", "s1"⟩, ⟨"s1", 0⟩), (⟨"c2", "s2"⟩, ⟨"s2", 0⟩), (⟨"c3", "s3"⟩, ⟨"s3", 0⟩)]⟩ 4)
      = some (Except.error (Failure.childFailure "s2" "boom"))
    ∧ events envF ⟨"X", 1, [], Phase.awaiting
        [(⟨"c1", "s1"⟩, ⟨"s1", 0⟩), (⟨"c2", "s2"⟩, ⟨"s2", 0⟩), (⟨"c3", "s3"⟩, ⟨"s3", 0⟩)]⟩ 4
      = [Event.awaitChild "c1", Event.childFailed "c2"] :=
  child_failure_fails_parent envF "X" 1 [] [(⟨"c1", "s1"⟩, ⟨"s1", 0⟩)] ⟨"c2", "s2"⟩
    ⟨"s2", 0⟩ [(⟨"c3", "s3"⟩, ⟨"s3", 0⟩)] (Failure.childFailure "s2" "boom")
    (fun p => "ans-" ++ p.2.subtopic)
    (by
      intro p hp
      rw [List.mem_singleton.mp hp]
      rfl)
    rfl 2

theorem findResult_perm : ∀ {cs₁ cs₂ : List (Nat × String)}, cs₁.Perm cs₂ →
    (cs₁.map Prod.fst).Nodup → ∀ j, findResult cs₁ j = findResult cs₂ j := by
  intro cs₁ cs₂ hperm
  induction hperm with
  | nil => intro _ _; rfl
  | cons x hp ih =>
      intro hnd j
      have hnd' := (List.nodup_cons.mp hnd).2
      by_cases hx : x.1 = j
      · simp [findResult, hx]
      · simp only [findResult, if_neg hx]
        exact ih hnd' j
  | swap x y l =>
      intro hnd j
      by_cases hy : y.1 = j
      · by_cases hx : x.1 = j
        · exfalso
          have hmem := (List.nodup_cons.mp hnd).1
          rw [hy, ← hx] at hmem
          exact hmem (List.mem_cons_self _ _)
        · simp [findResult, hy, hx]
      · by_cases hx : x.1 = j
        · simp [findResult, hy, hx]
        · simp [findResult, hy, hx]
  | trans hp₁ hp₂ ih₁ ih₂ =>
      intro hnd j
      rw [ih₁ hnd j, ih₂ ((hp₁.map Prod.fst).nodup hnd) j]

theorem fanInFrom_congr (cs₁ cs₂ : List (Nat × String))
    (h : ∀ j, findResult cs₁ j = findResult cs₂ j) :
    ∀ (tcs : List ToolCall) (j : Nat), fanInFrom cs₁ j tcs = fanInFrom cs₂ j tcs := by
  intro tcs
  induction tcs with
  | nil => intro _; rfl
  | cons tc rest ih =>
      intro j
      simp only [fanInFrom]
      rw [h j]
      cases findResult cs₂ j with
      | none => rfl
      | some r => rw [ih (j + 1)]

theorem fanInFrom_covered (cs : List (Nat × String)) (f : Nat → String) :
    ∀ (tcs : List ToolCall) (j : Nat),
    (∀ k, k < tcs.length → findResult cs (j + k) = some (f (j + k))) →
    fanInFrom cs j tcs = some (toolEntriesFrom f j tcs) := by
  intro tcs
  induction tcs with
  | nil => intro _ _; rfl
  | cons tc rest ih =>
      intro j hcov
      have h0 : findResult cs j = some (f j) := by simpa using hcov 0 (by simp)
      have hrest : ∀ k, k < rest.length → findResult cs (j + 1 + k) = some (f (j + 1 + k)) := by
        intro k hk
        have hx := hcov (k + 1) (by simpa using Nat.succ_lt_succ hk)
        rwa [show j + (k + 1) = j + 1 + k from by omega] at hx
      simp only [fanInFrom, toolEntriesFrom, h0]
      rw [ih (j + 1) hrest]
      rfl

/-- C3: the tool-result entries a fan-in step appends are in the order of
the originating decomposition requests, whatever the chronological order in
which the children completed.  `cs₁` and `cs₂` are two completion logs of
the same batch (permutations of each other, one completion per position):
the fan-in output is identical for both, and whenever the log covers the
batch it is exactly the entries in request order. -/
theorem fanin_in_request_order (tcs : List ToolCall) (cs₁ cs₂ : List (Nat × String))
    (f : Nat → String) (hperm : cs₁.Perm cs₂) (hnd : (cs₁.map Prod.fst).Nodup) :
    fanInHistory tcs cs₁ = fanInHistory tcs cs₂
    ∧ ((∀ k, k < tcs.length → findResult cs₁ k = some (f k)) →
        fanInHistory tcs cs₁ = some (toolEntriesFrom f 0 tcs)) := by
  constructor
  · exact fanInFrom_congr cs₁ cs₂ (findResult_perm hperm hnd) tcs 0
  · intro hcov
    exact fanInFrom_covered cs₁ f tcs 0 (by intro k hk; simpa using hcov k hk)

/-- C3 witness: two children completing in order (0 then 1) or reversed
(1 then 0) yield the same appended entries, tagged "c1" then "c2" in request
order. -/
theorem fanin_in_request_order_witness :
    fanInHistory [⟨"c1", "s1"⟩, ⟨"c2", "s2"⟩] [(0, "A1"), (1, "A2")]
      = fanInHistory [⟨"c1", "s1"⟩, ⟨"c2", "s2"⟩] [(1, "A2"), (0, "A1")]
    ∧ fanInHistory [⟨"c1", "s1"⟩, ⟨"c2", "s2"⟩] [(0, "A1"), (1, "A2")]
      = some [Message.tool "c1" "A1", Message.tool "c2" "A2"] := by
  have h := fanin_in_request_order [⟨"c1", "s1"⟩, ⟨"c2", "s2"⟩]
    [(0, "A1"), (1, "A2")] [(1, "A2"), (0, "A1")]
    (fun k => if k = 0 then "A1" else "A2") (by decide) (by decide)
  exact ⟨h.1, h.2 (by decide)⟩

end ResearchAgent
